import Mathlib

/-!
Verification of the rag-api research-paper ingestion and retrieval pipeline.

Python strings are modelled as `List Char` (a Python `str` is a sequence of
code points).  Pure helpers of the scripts are translated into executable
Lean functions; the relational store, the retry decorator and the
multiprocessing pool are modelled as explicit state passing / step
functions following the behaviour of the libraries the scripts use.
-/

set_option maxHeartbeats 1000000
set_option maxRecDepth 4000

/-- `true` on characters that are not whitespace; `str.split()` splits on
whitespace runs. -/
def notWs (c : Char) : Bool := !c.isWhitespace

theorem length_dropWhile_le (p : α → Bool) (l : List α) :
    (l.dropWhile p).length ≤ l.length := by
  induction l with
  | nil => simp
  | cons a t ih =>
      rw [List.dropWhile_cons]
      split
      · exact Nat.le_succ_of_le ih
      · simp

/-- Python `str.split()` (no separator argument): split on runs of
whitespace, discarding empty pieces.  Used by `insert_papers_to_db`
(`paper.content.split()`) and `truncate_docs` (`doc.split()`). -/
def splitWords : List Char → List (List Char)
  | [] => []
  | c :: cs =>
    if c.isWhitespace then splitWords cs
    else (c :: cs.takeWhile notWs) :: splitWords (cs.dropWhile notWs)
termination_by s => s.length
decreasing_by
  · simp
  · exact Nat.lt_succ_of_le (length_dropWhile_le _ _)

/-- Every word produced by `splitWords` is nonempty and whitespace-free. -/
def CleanWord (w : List Char) : Prop := w ≠ [] ∧ ∀ c ∈ w, notWs c = true

/-- All words in the list are nonempty and whitespace-free. -/
def CleanWords (ws : List (List Char)) : Prop := ∀ w ∈ ws, CleanWord w

theorem takeWhile_all_eq {p : α → Bool} {l : List α} (h : ∀ x ∈ l, p x = true) :
    l.takeWhile p = l := by
  induction l with
  | nil => rfl
  | cons a t ih =>
      simp only [List.takeWhile_cons, h a (by simp)]
      simp [ih fun x hx => h x (by simp [hx])]

theorem dropWhile_all_eq {p : α → Bool} {l : List α} (h : ∀ x ∈ l, p x = true) :
    l.dropWhile p = [] := by
  induction l with
  | nil => rfl
  | cons a t ih =>
      simp only [List.dropWhile_cons, h a (by simp)]
      simp [ih fun x hx => h x (by simp [hx])]

theorem takeWhile_append_stop {p : α → Bool} {l : List α} (h : ∀ x ∈ l, p x = true)
    {b : α} (hb : p b = false) (t : List α) :
    (l ++ b :: t).takeWhile p = l := by
  induction l with
  | nil => simp [List.takeWhile_cons, hb]
  | cons a s ih =>
      simp only [List.cons_append, List.takeWhile_cons, h a (by simp)]
      simp [ih fun x hx => h x (by simp [hx])]

theorem dropWhile_append_stop {p : α → Bool} {l : List α} (h : ∀ x ∈ l, p x = true)
    {b : α} (hb : p b = false) (t : List α) :
    (l ++ b :: t).dropWhile p = b :: t := by
  induction l with
  | nil => simp [List.dropWhile_cons, hb]
  | cons a s ih =>
      simp only [List.cons_append, List.dropWhile_cons, h a (by simp)]
      simp [ih fun x hx => h x (by simp [hx])]

theorem splitWords_clean (s : List Char) : CleanWords (splitWords s) := by
  induction s using splitWords.induct with
  | case1 => intro w hw; simp [splitWords] at hw
  | case2 c cs hc ih =>
      intro w hw
      rw [splitWords] at hw
      simp only [if_pos hc] at hw
      exact ih w hw
  | case3 c cs hc ih =>
      intro w hw
      rw [splitWords] at hw
      simp only [if_neg hc] at hw
      rcases List.mem_cons.mp hw with h | h
      · subst h
        refine ⟨by simp, ?_⟩
        intro x hx
        rcases List.mem_cons.mp hx with h | h
        · subst h; simp [notWs, hc]
        · exact List.mem_takeWhile_imp h
      · exact ih w h

/-- A nonempty whitespace-free word splits to itself. -/
theorem splitWords_single {w : List Char} (hw : CleanWord w) :
    splitWords w = [w] := by
  rcases hw with ⟨hne, hall⟩
  cases w with
  | nil => exact absurd rfl hne
  | cons c cs =>
      have hc : ¬ c.isWhitespace = true := by
        have := hall c (by simp)
        simp [notWs] at this; simp [this]
      rw [splitWords]
      simp only [if_neg hc]
      rw [takeWhile_all_eq (fun x hx => hall x (by simp [hx])),
        dropWhile_all_eq (fun x hx => hall x (by simp [hx]))]
      simp [splitWords]

theorem splitWords_word_append {w : List Char} (hw : CleanWord w) (t : List Char) :
    splitWords (w ++ ' ' :: t) = w :: splitWords t := by
  rcases hw with ⟨hne, hall⟩
  cases w with
  | nil => exact absurd rfl hne
  | cons c cs =>
      have hc : ¬ c.isWhitespace = true := by
        have := hall c (by simp)
        simp [notWs] at this; simp [this]
      rw [List.cons_append, splitWords]
      simp only [if_neg hc]
      have hb : notWs ' ' = false := by simp [notWs]
      rw [takeWhile_append_stop (fun x hx => hall x (by simp [hx])) hb,
        dropWhile_append_stop (fun x hx => hall x (by simp [hx])) hb]
      have : splitWords (' ' :: t) = splitWords t := by
        rw [splitWords]; simp
      rw [this]

/-- Splitting recovers the words from a single-space join of clean words:
`" ".join(ws).split() == ws`. -/
theorem splitWords_intercalate {ws : List (List Char)} (h : CleanWords ws) :
    splitWords (List.intercalate [' '] ws) = ws := by
  induction ws with
  | nil => simp [List.intercalate, splitWords]
  | cons w t ih =>
      cases t with
      | nil =>
          simp only [List.intercalate, List.intersperse, List.flatten]
          simpa using splitWords_single (h w (by simp))
      | cons w2 t2 =>
          have hjoin : List.intercalate [' '] (w :: w2 :: t2)
              = w ++ ' ' :: List.intercalate [' '] (w2 :: t2) := by
            simp [List.intercalate, List.intersperse]
          rw [hjoin, splitWords_word_append (h w (by simp))]
          rw [ih fun x hx => h x (by simp [hx])]

/-! ### Chunking (`src/scripts/helper.py`, `insert_papers_to_db`) -/

/-- Successive slices `l[i : i + c]` for `i in range(0, len(l), c)`,
as produced by the chunking comprehension in `insert_papers_to_db`. -/
def chunkList (c : Nat) : List α → List (List α)
  | [] => []
  | x :: xs => (x :: xs.take (c - 1)) :: chunkList c (xs.drop (c - 1))
termination_by l => l.length
decreasing_by
  exact Nat.lt_succ_of_le (by simp)

theorem chunkList_flatten (c : Nat) (l : List α) :
    (chunkList c l).flatten = l := by
  induction l using chunkList.induct c with
  | case1 => simp [chunkList]
  | case2 x xs ih =>
      rw [chunkList]
      simp [ih]

theorem chunkList_length (c : Nat) (hc : 0 < c) (l : List α) :
    (chunkList c l).length = (l.length + c - 1) / c := by
  induction l using chunkList.induct c with
  | case1 =>
      simp only [chunkList, List.length_nil, List.length_cons, Nat.zero_add]
      rw [Nat.div_eq_of_lt (by omega : c - 1 < c)]
  | case2 x xs ih =>
      rw [chunkList]
      simp only [List.length_cons, ih, List.length_drop]
      have h2 : xs.length + 1 + c - 1 = xs.length + c := by omega
      rw [h2, Nat.add_div_right _ hc]
      rcases Nat.lt_or_ge xs.length (c - 1) with h | h
      · have h1 : xs.length - (c - 1) = 0 := Nat.sub_eq_zero_of_le (Nat.le_of_lt h)
        rw [h1, Nat.zero_add, Nat.div_eq_of_lt (by omega : c - 1 < c),
          Nat.div_eq_of_lt (by omega : xs.length < c)]
      · have h1 : xs.length - (c - 1) + c - 1 = xs.length := by omega
        rw [h1]

theorem chunkList_mem_nonempty (c : Nat) (l : List α) :
    ∀ g ∈ chunkList c l, g ≠ [] := by
  induction l using chunkList.induct c with
  | case1 => simp [chunkList]
  | case2 x xs ih =>
      rw [chunkList]
      intro g hg
      rcases List.mem_cons.mp hg with h | h
      · subst h; simp
      · exact ih g h

theorem chunkList_mem_subset (c : Nat) (l : List α) :
    ∀ g ∈ chunkList c l, ∀ x ∈ g, x ∈ l := by
  intro g hg x hx
  rw [← chunkList_flatten c l]
  exact List.mem_flatten.mpr ⟨g, hg, hx⟩

/-- `helper.ResearchPaper`: title, link, authors, content, optional chunk
number.  Strings are lists of code points. -/
structure ResearchPaper where
  title : List Char
  link : List Char
  authors : List Char
  content : List Char := []
  chunk_num : Option Nat := none
deriving DecidableEq

/-- One row of the `(title, link, authors, chunk, i)` tuples prepared by
`insert_papers_to_db` for `execute_values`. -/
structure ChunkRow where
  title : List Char
  link : List Char
  authors : List Char
  content : List Char
  chunk_num : Nat
deriving DecidableEq

/-- The chunk strings of one paper:
`[" ".join(tokens[i : i + 1000]) for i in range(0, len(tokens), 1000)]`
with `tokens = paper.content.split()`.  The defensive
`.encode("utf-8", "replace").decode("utf-8")` is the identity on the
valid unicode strings modelled here. -/
def paperChunks (p : ResearchPaper) : List (List Char) :=
  (chunkList 1000 (splitWords p.content)).map (List.intercalate [' '])

/-- The rows contributed by one paper, with `enumerate` chunk indices. -/
def chunkRows (p : ResearchPaper) : List ChunkRow :=
  (paperChunks p).enum.map fun ic => ⟨p.title, p.link, p.authors, ic.2, ic.1⟩

/-- All rows prepared by `insert_papers_to_db` (the `data` list built by
`data.extend(...)` over the input papers). -/
def insertData (papers : List ResearchPaper) : List ChunkRow :=
  (papers.map chunkRows).flatten

/-- C1: splitting a paper whose content holds `L` whitespace-delimited
words yields exactly `ceil(L / 1000)` chunk rows; the chunk indices run
`0, 1, ...` in document order; concatenating the word sequences of the
chunks in index order reconstructs the original word sequence exactly;
and a paper with empty content produces zero chunks. -/
theorem insert_papers_chunking (p : ResearchPaper) :
    (chunkRows p).length = ((splitWords p.content).length + 999) / 1000 ∧
    (chunkRows p).map ChunkRow.chunk_num = List.range (chunkRows p).length ∧
    ((chunkRows p).map (fun r => splitWords r.content)).flatten
      = splitWords p.content ∧
    (p.content = [] → chunkRows p = []) := by
  refine ⟨?_, ?_, ?_, ?_⟩
  · rw [chunkRows, List.length_map, List.enum_length, paperChunks,
      List.length_map, chunkList_length 1000 (by norm_num)]
    omega
  · rw [chunkRows]
    rw [List.map_map, List.length_map, List.enum_length]
    have : (ChunkRow.chunk_num ∘ fun ic : Nat × List Char =>
        (⟨p.title, p.link, p.authors, ic.2, ic.1⟩ : ChunkRow)) = Prod.fst := rfl
    rw [this, List.enum_map_fst]
  · rw [chunkRows, List.map_map]
    have hmap : ((fun r : ChunkRow => splitWords r.content) ∘
        fun ic : Nat × List Char =>
          (⟨p.title, p.link, p.authors, ic.2, ic.1⟩ : ChunkRow))
        = fun ic : Nat × List Char => splitWords ic.2 := rfl
    rw [hmap]
    have henum : ((paperChunks p).enum.map fun ic : Nat × List Char =>
        splitWords ic.2) = (paperChunks p).map splitWords := by
      have hcomp : (fun ic : Nat × List Char => splitWords ic.2)
          = splitWords ∘ Prod.snd := rfl
      rw [hcomp, ← List.map_map, List.enum_map_snd]
    rw [henum, paperChunks, List.map_map]
    have hsplit : ∀ g ∈ chunkList 1000 (splitWords p.content),
        splitWords (List.intercalate [' '] g) = g := by
      intro g hg
      refine splitWords_intercalate fun w hw => ?_
      exact splitWords_clean p.content w (chunkList_mem_subset _ _ g hg w hw)
    have hmapid : (chunkList 1000 (splitWords p.content)).map
        (splitWords ∘ List.intercalate [' '])
        = (chunkList 1000 (splitWords p.content)).map id :=
      List.map_congr_left fun g hg => hsplit g hg
    rw [hmapid, List.map_id, chunkList_flatten]
  · intro h
    rw [chunkRows, paperChunks, h]
    simp [splitWords, chunkList]

/-- Witness for `insert_papers_chunking` at a concrete two-word paper. -/
theorem insert_papers_chunking_witness :
    (chunkRows ⟨"T".toList, "L".toList, "A".toList, "a b".toList, none⟩).length
        = ((splitWords "a b".toList).length + 999) / 1000 ∧
    (chunkRows ⟨"T".toList, "L".toList, "A".toList, "a b".toList, none⟩).map
        ChunkRow.chunk_num
        = List.range (chunkRows ⟨"T".toList, "L".toList, "A".toList,
            "a b".toList, none⟩).length ∧
    ((chunkRows ⟨"T".toList, "L".toList, "A".toList, "a b".toList, none⟩).map
        (fun r => splitWords r.content)).flatten = splitWords "a b".toList ∧
    (("a b".toList : List Char) = [] →
      chunkRows ⟨"T".toList, "L".toList, "A".toList, "a b".toList, none⟩ = []) :=
  insert_papers_chunking ⟨"T".toList, "L".toList, "A".toList, "a b".toList, none⟩

/-! ### Context retrieval (`src/main.py`, `retreive_relevant_docs`) -/

/-- `MAX_WORDS_IN_CONTEXT` from `src/main.py`. -/
def MAX_WORDS_IN_CONTEXT : Nat := 30000

/-- `prepare_context` from `src/main.py`: the fixed f-string template. -/
def prepare_context (title authors content : List Char) : List Char :=
  "Title of the paper:".toList ++ title ++ ", Authors of the paper: ".toList
    ++ authors ++ ", Content of the paper: ".toList ++ content

/-- `len(s.split(" "))` for Python `split` on the literal one-space
separator: one more than the number of `' '` characters. -/
def countWordsSp (s : List Char) : Nat :=
  (s.filter (fun c => c == ' ')).length + 1

/-- Total `split(" ")` word count of a list of context strings. -/
def sumWordsSp (ds : List (List Char)) : Nat := (ds.map countWordsSp).sum

/-- The accumulation loop of `retreive_relevant_docs`: append the next
context while `count_words + len(context_.split(" ")) < MAX_WORDS_IN_CONTEXT`,
then add `len(context_)` (the code adds the character count) to the
running counter; `break` on the first failing row. -/
def retrieveAccum : List (List Char) → Nat → List (List Char)
  | [], _ => []
  | d :: ds, cw =>
    if cw + countWordsSp d < MAX_WORDS_IN_CONTEXT then
      d :: retrieveAccum ds (cw + d.length)
    else []

/-- The context string built from one fetched `(title, authors, content)`
row. -/
def contextOf (row : List Char × List Char × List Char) : List Char :=
  prepare_context row.1 row.2.1 row.2.2

/-- `retreive_relevant_docs` from `src/main.py`, applied to the rows the
ranked nearest-neighbour query returns (already in ascending-distance
order, at most `n` of them). -/
def retreive_relevant_docs
    (rows : List (List Char × List Char × List Char)) : List (List Char) :=
  retrieveAccum (rows.map contextOf) 0


theorem length_filter_le_length (p : α → Bool) (l : List α) :
    (l.filter p).length ≤ l.length := by
  induction l with
  | nil => simp
  | cons x t ih =>
      rw [List.filter_cons]
      split
      · simpa using ih
      · exact Nat.le_succ_of_le ih

theorem length_filter_lt_length {p : α → Bool} {l : List α} {a : α}
    (hmem : a ∈ l) (ha : p a = false) : (l.filter p).length < l.length := by
  induction l with
  | nil => simp at hmem
  | cons x t ih =>
      rw [List.filter_cons]
      rcases List.mem_cons.mp hmem with h | h
      · subst h
        rw [ha]
        exact Nat.lt_succ_of_le (length_filter_le_length p t)
      · split
        · simpa using ih h
        · exact Nat.lt_succ_of_le (Nat.le_of_lt (ih h))

/-- The `split(" ")` word count of a context string never exceeds its
character length, because the template contributes non-space characters. -/
theorem countWordsSp_contextOf_le (row : List Char × List Char × List Char) :
    countWordsSp (contextOf row) ≤ (contextOf row).length := by
  have hmem : 'T' ∈ contextOf row := by
    rw [contextOf, prepare_context]
    refine List.mem_append.mpr (Or.inl ?_)
    refine List.mem_append.mpr (Or.inl ?_)
    refine List.mem_append.mpr (Or.inl ?_)
    refine List.mem_append.mpr (Or.inl ?_)
    refine List.mem_append.mpr (Or.inl ?_)
    decide
  have := @length_filter_lt_length Char (fun c : Char => c == ' ')
    (contextOf row) 'T' hmem (by decide)
  rw [countWordsSp]
  omega

theorem retrieveAccum_take (ds : List (List Char)) (cw : Nat) :
    ∃ k, retrieveAccum ds cw = ds.take k := by
  induction ds generalizing cw with
  | nil => exact ⟨0, rfl⟩
  | cons d t ih =>
      rw [retrieveAccum]
      split
      · obtain ⟨k, hk⟩ := ih (cw + d.length)
        exact ⟨k + 1, by rw [hk]; rfl⟩
      · exact ⟨0, rfl⟩

theorem retrieveAccum_budget (ds : List (List Char)) (cw : Nat)
    (hw : ∀ d ∈ ds, countWordsSp d ≤ d.length) :
    retrieveAccum ds cw = [] ∨
      cw + sumWordsSp (retrieveAccum ds cw) < MAX_WORDS_IN_CONTEXT := by
  induction ds generalizing cw with
  | nil => exact Or.inl rfl
  | cons d t ih =>
      rw [retrieveAccum]
      split
      · rename_i hcond
        refine Or.inr ?_
        rcases ih (cw + d.length) (fun x hx => hw x (by simp [hx])) with h | h
        · rw [sumWordsSp, h]
          simpa using hcond
        · have hd : countWordsSp d ≤ d.length := hw d (by simp)
          rw [sumWordsSp] at h ⊢
          simp only [List.map_cons, List.sum_cons]
          omega
      · exact Or.inl rfl

/-- C5: the context sequence returned by `retreive_relevant_docs` has
cumulative `split(" ")` word count at most the 30000-word budget, and it
is a prefix of the ranked context-string list: rows are included whole,
in rank order, and the first rejected row is wholly excluded. -/
theorem retreive_relevant_docs_budget
    (rows : List (List Char × List Char × List Char)) :
    sumWordsSp (retreive_relevant_docs rows) ≤ MAX_WORDS_IN_CONTEXT ∧
    ∃ k, retreive_relevant_docs rows = (rows.map contextOf).take k := by
  constructor
  · have hb := retrieveAccum_budget (rows.map contextOf) 0 ?_
    · rcases hb with h | h
      · rw [retreive_relevant_docs, h]; simp [sumWordsSp]
      · rw [retreive_relevant_docs]
        omega
    · intro d hd
      obtain ⟨row, _, hrow⟩ := List.mem_map.mp hd
      rw [← hrow]
      exact countWordsSp_contextOf_le row
  · exact retrieveAccum_take (rows.map contextOf) 0

theorem filter_replicate_neg {p : α → Bool} {a : α} (h : p a = false) (n : Nat) :
    (List.replicate n a).filter p = [] := by
  induction n with
  | zero => rfl
  | succ m ih =>
      rw [List.replicate_succ, List.filter_cons, h]
      simpa using ih

/-- First candidate row of the budget counterexample: empty title and
authors, content of 30000 non-space characters (few words, many
characters). -/
def cexRow1 : List Char × List Char × List Char :=
  ([], [], List.replicate 30000 'x')

/-- Second candidate row of the budget counterexample: all fields empty. -/
def cexRow2 : List Char × List Char × List Char := ([], [], [])

/-- The template characters contributed by `prepare_context` around empty
title and authors. -/
def cexTpl : List Char :=
  "Title of the paper:, Authors of the paper: , Content of the paper: ".toList

theorem cex_ctx1_eq : contextOf cexRow1 = cexTpl ++ List.replicate 30000 'x' := by
  show "Title of the paper:".toList ++ [] ++ ", Authors of the paper: ".toList
      ++ [] ++ ", Content of the paper: ".toList ++ List.replicate 30000 'x'
    = cexTpl ++ List.replicate 30000 'x'
  congr 1

theorem cex_cw1 : countWordsSp (contextOf cexRow1) = 14 := by
  rw [cex_ctx1_eq, countWordsSp, List.filter_append, List.length_append,
    filter_replicate_neg (by decide) 30000]
  decide

theorem cex_len1 : (contextOf cexRow1).length = 30067 := by
  rw [cex_ctx1_eq, List.length_append, List.length_replicate]
  decide

theorem cex_cw2 : countWordsSp (contextOf cexRow2) = 14 := by decide

/-- C4 fails on the code: with a first row whose context string holds
30067 characters but only 14 `split(" ")` words and an empty second row,
both rows are individually and cumulatively far under the 30000-word
budget, yet `retreive_relevant_docs` returns only the first row, because
the accumulator adds `len(context_)` (characters) instead of
`len(context_.split(" "))` (words). -/
theorem retreive_relevant_docs_drops_under_budget_row :
    retreive_relevant_docs [cexRow1, cexRow2] = [contextOf cexRow1] ∧
    countWordsSp (contextOf cexRow1) + countWordsSp (contextOf cexRow2)
      ≤ MAX_WORDS_IN_CONTEXT ∧
    (retreive_relevant_docs [cexRow1, cexRow2]).length = 1 := by
  have key : retreive_relevant_docs [cexRow1, cexRow2] = [contextOf cexRow1] := by
    rw [retreive_relevant_docs, List.map_cons, List.map_cons, List.map_nil,
      retrieveAccum]
    rw [if_pos (by rw [cex_cw1]; decide)]
    rw [retrieveAccum, if_neg]
    rw [cex_len1, cex_cw2]
    decide
  refine ⟨key, ?_, by rw [key]; rfl⟩
  rw [cex_cw1, cex_cw2]
  decide

/-! ### Embedding truncation (`src/scripts/generate_embeddings.py`,
`truncate_docs`) -/

/-- The number of words Python’s `doc_[: len(doc_) - 500]` keeps out of
`L = len(doc_)`.  The slice stop `L - 500` is computed as an `int`: a
non-negative stop keeps the first `L - 500` words, while a negative stop
wraps to `L + (L - 500)` clamped at zero, keeping the first `2L - 500`
words. -/
def truncKeep (L : Nat) : Nat :=
  if (L : Int) - 500 < 0 then ((L : Int) - 500 + L).toNat else L - 500

theorem truncKeep_le (L : Nat) : truncKeep L ≤ L := by
  rw [truncKeep]
  split <;> omega

theorem truncKeep_lt {L : Nat} (h : 0 < L) : truncKeep L < L := by
  rw [truncKeep]
  split <;> omega

/-- One truncation pass of `truncate_docs`:
`" ".join(doc_[: len(doc_) - 500])` with `doc_ = doc.split()`, keeping
the first `truncKeep len(doc_)` words per Python’s slice semantics. -/
def truncPass (doc : List Char) : List Char :=
  List.intercalate [' ']
    ((splitWords doc).take (truncKeep (splitWords doc).length))

/-- `truncate_docs`, with `len(enc.encode(doc))` of the external
`cl100k_base` tokenizer abstracted as `tok`.  The Python function
recurses unboundedly; `fuel` bounds the recursion depth of the model and
is always instantiated large enough that it is never exhausted. -/
def truncate_docs (tok : List Char → Nat) : Nat → List Char → List Char
  | 0, doc => doc
  | f + 1, doc =>
    if tok doc < 8100 then doc else truncate_docs tok f (truncPass doc)

/-- `truncate_docs` launched with sufficient fuel for its input. -/
def truncateRun (tok : List Char → Nat) (doc : List Char) : List Char :=
  truncate_docs tok ((splitWords doc).length + 2) doc

theorem truncPass_intercalate {ws : List (List Char)} (h : CleanWords ws) :
    truncPass (List.intercalate [' '] ws)
      = List.intercalate [' '] (ws.take (truncKeep ws.length)) := by
  rw [truncPass, splitWords_intercalate h]

theorem intercalate_nil_eq :
    List.intercalate [' '] ([] : List (List Char)) = [] := rfl

/-- On an already-normalised document, `truncate_docs` returns the join of
a prefix of the word list and stops strictly below the token ceiling;
since every pass keeps strictly fewer words, fuel exceeding the word
count suffices. -/
theorem truncate_norm (tok : List Char → Nat) (h0 : tok [] < 8100) :
    ∀ f (ws : List (List Char)), CleanWords ws → ws.length < f →
    ∃ k, k ≤ ws.length ∧
      truncate_docs tok f (List.intercalate [' '] ws)
        = List.intercalate [' '] (ws.take k) ∧
      tok (List.intercalate [' '] (ws.take k)) < 8100 := by
  intro f
  induction f with
  | zero => intro ws _ hlt; omega
  | succ f ih =>
      intro ws hclean hlt
      rw [truncate_docs]
      by_cases htok : tok (List.intercalate [' '] ws) < 8100
      · refine ⟨ws.length, Nat.le_refl _, ?_, ?_⟩
        · rw [if_pos htok, List.take_length]
        · rw [List.take_length]; exact htok
      · rw [if_neg htok]
        have hne : ws ≠ [] := by
          intro hnil
          subst hnil
          exact htok (by rw [intercalate_nil_eq]; exact h0)
        have hlen : 0 < ws.length := List.length_pos.mpr hne
        rw [truncPass_intercalate hclean]
        have hclean2 : CleanWords (ws.take (truncKeep ws.length)) :=
          fun w hw => hclean w (List.take_subset _ _ hw)
        have hlt2 : (ws.take (truncKeep ws.length)).length < f := by
          rw [List.length_take]
          have := truncKeep_lt hlen
          omega
        obtain ⟨k, hk, heq, hktok⟩ :=
          ih (ws.take (truncKeep ws.length)) hclean2 hlt2
        refine ⟨min k (truncKeep ws.length), ?_, ?_, ?_⟩
        · have := truncKeep_le ws.length
          omega
        · rw [heq, List.take_take]
        · rw [← List.take_take]; exact hktok

/-- C6: with the external subword tokenizer modelled abstractly (empty
text is under the ceiling; joining a proper prefix of a clean word list
strictly shrinks the measure; whitespace normalisation does not grow it),
every truncation pass taken on a document over the 8100-token ceiling
strictly shrinks the token count — both the first pass on the raw
document and every later pass on a normalised document — and the
recursion stops at a result strictly below 8100 tokens. -/
theorem truncate_docs_shrinks_and_terminates (tok : List Char → Nat)
    (h0 : tok [] < 8100)
    (hmono : ∀ ws : List (List Char), CleanWords ws → ∀ k, k < ws.length →
      tok (List.intercalate [' '] (ws.take k))
        < tok (List.intercalate [' '] ws))
    (doc : List Char)
    (hnorm : tok (List.intercalate [' '] (splitWords doc)) ≤ tok doc) :
    (8100 ≤ tok doc → tok (truncPass doc) < tok doc) ∧
    (∀ ws : List (List Char), CleanWords ws →
      8100 ≤ tok (List.intercalate [' '] ws) →
      tok (truncPass (List.intercalate [' '] ws))
        < tok (List.intercalate [' '] ws)) ∧
    tok (truncateRun tok doc) < 8100 := by
  have hpass : ∀ s : List Char, 8100 ≤ tok s →
      tok (List.intercalate [' '] (splitWords s)) ≤ tok s →
      tok (truncPass s) < tok s := by
    intro s hs hn
    rcases Nat.eq_zero_or_pos (splitWords s).length with h | h
    · have hnil : splitWords s = [] := List.length_eq_zero.mp h
      rw [truncPass, hnil]
      simp only [List.take_nil]
      rw [intercalate_nil_eq]
      omega
    · have := hmono (splitWords s) (splitWords_clean s)
        (truncKeep (splitWords s).length) (truncKeep_lt h)
      rw [truncPass]
      omega
  refine ⟨fun h => hpass doc h hnorm, ?_, ?_⟩
  · intro ws hclean h
    refine hpass _ h ?_
    rw [splitWords_intercalate hclean]
  · rw [truncateRun]
    show tok (truncate_docs tok ((splitWords doc).length + 1 + 1) doc) < 8100
    rw [truncate_docs]
    by_cases htok : tok doc < 8100
    · rw [if_pos htok]; exact htok
    · rw [if_neg htok]
      have hclean2 : CleanWords ((splitWords doc).take
          (truncKeep (splitWords doc).length)) :=
        fun w hw => splitWords_clean doc w (List.take_subset _ _ hw)
      have hlt : ((splitWords doc).take
          (truncKeep (splitWords doc).length)).length
            < (splitWords doc).length + 1 := by
        rw [List.length_take]
        have := truncKeep_le (splitWords doc).length
        omega
      obtain ⟨k, _, heq, hktok⟩ :=
        truncate_norm tok h0 ((splitWords doc).length + 1) _ hclean2 hlt
      rw [truncPass, heq]
      exact hktok

/-- The `split()` word count as a token measure, used to witness the
abstract tokenizer hypotheses. -/
def wordTok (s : List Char) : Nat := (splitWords s).length

/-- Witness for `truncate_docs_shrinks_and_terminates` with the word-count
measure and the empty document. -/
theorem truncate_docs_shrinks_witness :
    (8100 ≤ wordTok [] → wordTok (truncPass []) < wordTok []) ∧
    (∀ ws : List (List Char), CleanWords ws →
      8100 ≤ wordTok (List.intercalate [' '] ws) →
      wordTok (truncPass (List.intercalate [' '] ws))
        < wordTok (List.intercalate [' '] ws)) ∧
    wordTok (truncateRun wordTok []) < 8100 :=
  truncate_docs_shrinks_and_terminates wordTok (by simp [wordTok, splitWords])
    (by
      intro ws hclean k hk
      rw [wordTok, wordTok, splitWords_intercalate hclean,
        splitWords_intercalate fun w hw => hclean w (List.take_subset _ _ hw),
        List.length_take]
      omega)
    [] (by rw [wordTok, splitWords, intercalate_nil_eq]; exact Nat.le_refl _)

/-- C10: if the token count of the input is already below 8100,
`truncate_docs` returns the input unchanged; otherwise the output is the
single-space join of a prefix of the input’s whitespace-split word
sequence — a proper prefix whenever the input has any word at all — so
no word is reordered, rewritten, or dropped from anywhere but the tail. -/
theorem truncate_docs_identity_or_word_cut (tok : List Char → Nat)
    (h0 : tok [] < 8100) (doc : List Char) :
    (tok doc < 8100 → truncateRun tok doc = doc) ∧
    (8100 ≤ tok doc →
      ∃ k, k ≤ (splitWords doc).length ∧
        (splitWords doc ≠ [] → k < (splitWords doc).length) ∧
        truncateRun tok doc
          = List.intercalate [' '] ((splitWords doc).take k)) := by
  constructor
  · intro h
    rw [truncateRun]
    show truncate_docs tok ((splitWords doc).length + 1 + 1) doc = doc
    rw [truncate_docs, if_pos h]
  · intro h
    rw [truncateRun]
    show ∃ k, k ≤ (splitWords doc).length ∧
        (splitWords doc ≠ [] → k < (splitWords doc).length) ∧
        truncate_docs tok ((splitWords doc).length + 1 + 1) doc
          = List.intercalate [' '] ((splitWords doc).take k)
    rw [truncate_docs, if_neg (by omega)]
    have hclean2 : CleanWords ((splitWords doc).take
        (truncKeep (splitWords doc).length)) :=
      fun w hw => splitWords_clean doc w (List.take_subset _ _ hw)
    have hlt : ((splitWords doc).take
        (truncKeep (splitWords doc).length)).length
          < (splitWords doc).length + 1 := by
      rw [List.length_take]
      have := truncKeep_le (splitWords doc).length
      omega
    obtain ⟨k, hk, heq, _⟩ :=
      truncate_norm tok h0 ((splitWords doc).length + 1) _ hclean2 hlt
    rw [List.length_take] at hk
    refine ⟨min k (truncKeep (splitWords doc).length), ?_, ?_, ?_⟩
    · have := truncKeep_le (splitWords doc).length
      omega
    · intro hne
      have hpos : 0 < (splitWords doc).length := List.length_pos.mpr hne
      have := truncKeep_lt hpos
      omega
    · rw [truncPass, heq, List.take_take]

/-- Witness for `truncate_docs_identity_or_word_cut` with the word-count
measure on a concrete three-word document. -/
theorem truncate_docs_identity_witness :
    (wordTok "a b c".toList < 8100 →
      truncateRun wordTok "a b c".toList = "a b c".toList) ∧
    (8100 ≤ wordTok "a b c".toList →
      ∃ k, k ≤ (splitWords "a b c".toList).length ∧
        (splitWords "a b c".toList ≠ [] →
          k < (splitWords "a b c".toList).length) ∧
        truncateRun wordTok "a b c".toList
          = List.intercalate [' ']
              ((splitWords "a b c".toList).take k)) :=
  truncate_docs_identity_or_word_cut wordTok
    (by simp [wordTok, splitWords]) "a b c".toList

/-! ### Page fetching with retry (`src/scripts/arxiv_scraper.py` and
`src/scripts/gscholar_scraper.py`, `Scraper._fetch_page` wrapped by
`@retrying.retry(wait_fixed=3000, stop_max_attempt_number=3,
retry_on_result=lambda x: x is None)`). -/

/-- Outcome of one call of the wrapped function: a returned value or a
raised exception (for `_fetch_page`, `response.raise_for_status()`
raising on an HTTP error status). -/
inductive AttemptResult (α ε : Type) where
  | value : α → AttemptResult α ε
  | exc : ε → AttemptResult α ε
deriving DecidableEq

/-- Final outcome of the `retrying.Retrying.call` loop: a returned value,
a re-raised exception from the last attempt, or a `RetryError` for a
still-rejected result after the attempt ceiling. -/
inductive RetryFinal (α ε : Type) where
  | ok : α → RetryFinal α ε
  | raised : ε → RetryFinal α ε
  | retryError : AttemptResult α ε → RetryFinal α ε
deriving DecidableEq

/-- `Retrying.should_reject` with the scrapers' arguments: the default
`retry_on_exception` rejects (retries) every exception, and
`retry_on_result=lambda x: x is None` rejects a `None` result. -/
def shouldRejectFetch (a : AttemptResult (Option (List Char)) Nat) : Bool :=
  match a with
  | .value v => v.isNone
  | .exc _ => true

/-- What `retrying` does once the stop condition holds: re-raise the
attempt's exception (`wrap_exception=False`), or raise `RetryError` for a
rejected plain result. -/
def stopOutcome (a : AttemptResult (Option (List Char)) Nat) :
    RetryFinal (Option (List Char)) Nat :=
  match a with
  | .exc e => .raised e
  | .value v => .retryError (.value v)

/-- The `Retrying.call` loop with `stop_max_attempt_number=3`:
`f n` is the outcome of attempt number `n`; `remaining` counts the
attempts still allowed after the current one.  Returns the attempt number
that produced the final outcome together with that outcome. -/
def retryGo (f : Nat → AttemptResult (Option (List Char)) Nat) :
    Nat → Nat → Nat × RetryFinal (Option (List Char)) Nat
  | n, remaining =>
    if shouldRejectFetch (f n) = false then
      (n, match f n with | .value v => .ok v | .exc e => .raised e)
    else match remaining with
      | 0 => (n, stopOutcome (f n))
      | rem + 1 => retryGo f (n + 1) rem
termination_by _ remaining => remaining

/-- `Scraper._fetch_page` under the decorator: first attempt is number 1
and `stop_max_attempt_number=3` allows two further attempts. -/
def fetch_page (f : Nat → AttemptResult (Option (List Char)) Nat) :
    Nat × RetryFinal (Option (List Char)) Nat :=
  retryGo f 1 2

/-- C2 fails on the code: a URL whose every fetch attempt raises an HTTP
error status (`raise_for_status()`, e.g. 404) is retried by the
`retrying` decorator — whose default `retry_on_exception` rejects every
exception — and the error is re-raised only after attempt 3, not raised
immediately after attempt 1 as the claim states. -/
theorem fetch_page_retries_http_error :
    fetch_page (fun _ => AttemptResult.exc 404)
      = (3, RetryFinal.raised 404) ∧
    (fetch_page (fun _ => AttemptResult.exc 404)).1 ≠ 1 := by
  have h : fetch_page (fun _ => AttemptResult.exc 404)
      = (3, RetryFinal.raised 404) := by
    simp [fetch_page, retryGo, shouldRejectFetch, stopOutcome]
  exact ⟨h, by rw [h]; decide⟩

/-- C2 amended: the decorator retries both exceptions (HTTP error
statuses included) and `None` results; the first accepted attempt's value
is returned at that attempt, and after the third rejected attempt the
exception of attempt 3 is re-raised (`RetryError` for a rejected `None`).
-/
theorem fetch_page_retry_behaviour
    (f : Nat → AttemptResult (Option (List Char)) Nat) :
    fetch_page f =
      if shouldRejectFetch (f 1) = false then
        (1, match f 1 with | .value v => .ok v | .exc e => .raised e)
      else if shouldRejectFetch (f 2) = false then
        (2, match f 2 with | .value v => .ok v | .exc e => .raised e)
      else if shouldRejectFetch (f 3) = false then
        (3, match f 3 with | .value v => .ok v | .exc e => .raised e)
      else (3, stopOutcome (f 3)) := by
  rw [fetch_page, retryGo]
  split
  · rfl
  · show retryGo f 2 1 = _
    rw [retryGo]
    split
    · rfl
    · show retryGo f 3 0 = _
      rw [retryGo]

/-! ### Paper content scraping (`PaperScraper._fetch_paper_content` and
`PaperScraper.scrape`, identical in `src/scripts/arxiv_scraper.py` and
`src/scripts/gscholar_scraper.py`). -/

/-- `PaperScraper._fetch_paper_content`: fetch the PDF behind
`paper.link`, parse it with `PyPDF2.PdfReader`, concatenate the page
texts and replace NUL characters with U+FFFD.  `pdfOf` abstracts the
fetch-and-parse outcome per link — the extracted page texts, or the
exception raised by the fetch or by `PdfReader`.  The method body has no
`try`/`except`, so an exception propagates out of the call. -/
def sanitizeNul (s : List Char) : List Char :=
  s.map fun c => if c = '\x00' then '�' else c

def fetch_paper_content (pdfOf : List Char → Except Nat (List (List Char)))
    (p : ResearchPaper) : Except Nat ResearchPaper :=
  match pdfOf p.link with
  | .error e => .error e
  | .ok pages => .ok { p with content := sanitizeNul pages.flatten }

/-- `PaperScraper.scrape`: the multiprocessing pool maps
`_fetch_paper_content` over the papers and `list(...)` drains the result
iterator, which re-raises the first worker exception in the parent, so
one failing paper aborts the whole batch. -/
def PaperScraper.scrape (pdfOf : List Char → Except Nat (List (List Char)))
    (papers : List ResearchPaper) : Except Nat (List ResearchPaper) :=
  papers.mapM (fetch_paper_content pdfOf)

/-- The record `scrape` would produce for a paper whose fetch-and-parse
succeeds. -/
def okContent (pdfOf : List Char → Except Nat (List (List Char)))
    (p : ResearchPaper) : ResearchPaper :=
  match pdfOf p.link with
  | .ok pages => { p with content := sanitizeNul pages.flatten }
  | .error _ => p

/-- The concrete paper used in the scrape counterexample. -/
def cexPaper : ResearchPaper := ⟨"T".toList, "L".toList, "A".toList, [], none⟩

/-- C3 fails on the code: with a single paper whose PDF parse raises,
`scrape` propagates the exception and aborts the batch instead of
returning the paper with empty content. -/
theorem scrape_aborts_on_parse_error :
    PaperScraper.scrape (fun _ => Except.error 7) [cexPaper]
      = Except.error 7 ∧
    PaperScraper.scrape (fun _ => Except.error 7) [cexPaper]
      ≠ Except.ok [cexPaper] := by
  constructor
  · rfl
  · intro h
    rw [show PaperScraper.scrape (fun _ => Except.error 7) [cexPaper]
        = Except.error 7 from rfl] at h
    exact Except.noConfusion h

/-- C3 amended: any paper whose fetch or parse raises makes the whole
`scrape` call raise (the batch is aborted, no empty-content record is
produced); when every paper succeeds, the batch is the list of papers
with their extracted, NUL-sanitised content. -/
theorem scrape_batch_outcome (pdfOf : List Char → Except Nat (List (List Char)))
    (papers : List ResearchPaper) :
    ((∃ p ∈ papers, ∃ e, pdfOf p.link = Except.error e) →
      ∃ e, PaperScraper.scrape pdfOf papers = Except.error e) ∧
    ((∀ p ∈ papers, ∃ pages, pdfOf p.link = Except.ok pages) →
      PaperScraper.scrape pdfOf papers
        = Except.ok (papers.map (okContent pdfOf))) := by
  induction papers with
  | nil =>
      constructor
      · rintro ⟨p, hp, _⟩
        simp at hp
      · intro _
        rfl
  | cons q t ih =>
      constructor
      · rintro ⟨p, hp, e, he⟩
        rw [PaperScraper.scrape, List.mapM_cons]
        rcases List.mem_cons.mp hp with h | h
        · subst h
          rw [fetch_paper_content, he]
          exact ⟨e, rfl⟩
        · cases hq : pdfOf q.link with
          | error e2 =>
              rw [fetch_paper_content, hq]
              exact ⟨e2, rfl⟩
          | ok pages =>
              obtain ⟨e3, he3⟩ := ih.1 ⟨p, h, e, he⟩
              rw [PaperScraper.scrape] at he3
              rw [fetch_paper_content, hq]
              refine ⟨e3, ?_⟩
              show (t.mapM (fetch_paper_content pdfOf)) >>= _ = _
              rw [he3]
              rfl
      · intro hall
        rw [PaperScraper.scrape, List.mapM_cons]
        obtain ⟨pages, hq⟩ := hall q (by simp)
        rw [fetch_paper_content, hq]
        have ht := ih.2 fun p hp => hall p (by simp [hp])
        rw [PaperScraper.scrape] at ht
        show (t.mapM (fetch_paper_content pdfOf)) >>= _ = _
        rw [ht]
        show Except.ok _ = Except.ok _
        rw [List.map_cons]
        have hok : okContent pdfOf q
            = { q with content := sanitizeNul pages.flatten } := by
          rw [okContent, hq]
        rw [hok]

/-- Witness for `scrape_batch_outcome`: the all-success branch at one
concrete paper with a one-page PDF. -/
theorem scrape_batch_outcome_witness :
    PaperScraper.scrape (fun _ => Except.ok ["hi".toList]) [cexPaper]
      = Except.ok ([cexPaper].map (okContent fun _ => Except.ok ["hi".toList])) :=
  (scrape_batch_outcome (fun _ => Except.ok ["hi".toList]) [cexPaper]).2
    (fun _ _ => ⟨["hi".toList], rfl⟩)

/-! ### Idempotent persistence (`src/scripts/helper.py`,
`insert_papers_to_db`: `INSERT ... VALUES %s ON CONFLICT (link,
chunk_num) DO NOTHING`). -/

/-- The conflict key of a chunk row: `(link, chunk_num)`. -/
def rowKey (r : ChunkRow) : List Char × Nat := (r.link, r.chunk_num)

/-- Modelled from the spec: the relational store's `ON CONFLICT (link,
chunk_num) DO NOTHING` insert executed by `psycopg2.extras.execute_values`
— the database engine itself is outside the repository.  A row is
appended unless a row with the same `(link, chunk_num)` key is already
present, in which case the insert of that row is a no-op. -/
def insertOrIgnore (db : List ChunkRow) (r : ChunkRow) : List ChunkRow :=
  if db.any (fun x => rowKey x = rowKey r) then db else db ++ [r]

/-- Modelled from the spec: the batched multi-row insert applies the
insert-or-ignore policy to each prepared row in order. -/
def insertBatch (db : List ChunkRow) (rows : List ChunkRow) : List ChunkRow :=
  rows.foldl insertOrIgnore db

/-- `insert_papers_to_db` acting on the store state: chunk the papers and
insert all prepared rows with the conflict policy. -/
def insert_papers_to_db (db : List ChunkRow) (papers : List ResearchPaper) :
    List ChunkRow :=
  insertBatch db (insertData papers)

theorem mem_insertOrIgnore (db : List ChunkRow) (r x : ChunkRow)
    (hx : x ∈ db) : x ∈ insertOrIgnore db r := by
  rw [insertOrIgnore]
  split
  · exact hx
  · exact List.mem_append.mpr (Or.inl hx)

theorem insertOrIgnore_key_present (db : List ChunkRow) (r : ChunkRow) :
    ∃ x ∈ insertOrIgnore db r, rowKey x = rowKey r := by
  rw [insertOrIgnore]
  split
  · rename_i h
    obtain ⟨x, hx, hk⟩ := List.any_eq_true.mp h
    exact ⟨x, hx, of_decide_eq_true hk⟩
  · exact ⟨r, List.mem_append.mpr (Or.inr (by simp)), rfl⟩

theorem insertOrIgnore_of_present (db : List ChunkRow) (r : ChunkRow)
    (h : ∃ x ∈ db, rowKey x = rowKey r) : insertOrIgnore db r = db := by
  rw [insertOrIgnore, if_pos]
  obtain ⟨x, hx, hk⟩ := h
  exact List.any_eq_true.mpr ⟨x, hx, decide_eq_true hk⟩

theorem insertBatch_mem (db : List ChunkRow) (rows : List ChunkRow)
    (x : ChunkRow) (hx : x ∈ db) : x ∈ insertBatch db rows := by
  induction rows generalizing db with
  | nil => exact hx
  | cons r t ih => exact ih (insertOrIgnore db r) (mem_insertOrIgnore db r x hx)

theorem insertBatch_key_present (db : List ChunkRow) (rows : List ChunkRow)
    (r : ChunkRow) (hr : r ∈ rows) :
    ∃ x ∈ insertBatch db rows, rowKey x = rowKey r := by
  induction rows generalizing db with
  | nil => simp at hr
  | cons q t ih =>
      rcases List.mem_cons.mp hr with h | h
      · subst h
        obtain ⟨x, hx, hk⟩ := insertOrIgnore_key_present db r
        exact ⟨x, insertBatch_mem _ t x hx, hk⟩
      · exact ih (insertOrIgnore db q) h

theorem insertBatch_of_all_present (db : List ChunkRow) (rows : List ChunkRow)
    (h : ∀ r ∈ rows, ∃ x ∈ db, rowKey x = rowKey r) :
    insertBatch db rows = db := by
  induction rows with
  | nil => rfl
  | cons q t ih =>
      rw [insertBatch, List.foldl_cons,
        insertOrIgnore_of_present db q (h q (by simp))]
      exact ih fun r hr => h r (by simp [hr])

theorem insertOrIgnore_nodup_keys (db : List ChunkRow) (r : ChunkRow)
    (h : (db.map rowKey).Nodup) :
    ((insertOrIgnore db r).map rowKey).Nodup := by
  rw [insertOrIgnore]
  split
  · exact h
  · rename_i hny
    rw [List.map_append, List.map_cons, List.map_nil]
    refine List.Nodup.append h (by simp) ?_
    intro k hk1 hk2
    obtain ⟨x, hx, hkx⟩ := List.mem_map.mp hk1
    have : k = rowKey r := by simpa using hk2
    subst this
    exact hny (List.any_eq_true.mpr ⟨x, hx, decide_eq_true hkx⟩)

theorem insertBatch_nodup_keys (db : List ChunkRow) (rows : List ChunkRow)
    (h : (db.map rowKey).Nodup) :
    ((insertBatch db rows).map rowKey).Nodup := by
  induction rows generalizing db with
  | nil => exact h
  | cons q t ih => exact ih _ (insertOrIgnore_nodup_keys db q h)

/-- C7: running the chunking-and-persist step a second time over the same
papers is a no-op — the store state is unchanged, so no `(link,
chunk_num)` pair gains a duplicate row — and whenever the store's
`(link, chunk_num)` keys are unique (the table's unique constraint), they
remain unique after any insert run. -/
theorem insert_papers_idempotent (db : List ChunkRow)
    (papers : List ResearchPaper) (h : (db.map rowKey).Nodup) :
    insert_papers_to_db (insert_papers_to_db db papers) papers
      = insert_papers_to_db db papers ∧
    ((insert_papers_to_db db papers).map rowKey).Nodup := by
  constructor
  · rw [insert_papers_to_db, insert_papers_to_db]
    exact insertBatch_of_all_present _ _
      fun r hr => insertBatch_key_present db _ r hr
  · exact insertBatch_nodup_keys db _ h

/-- Witness for `insert_papers_idempotent`: empty store, one two-word
paper. -/
theorem insert_papers_idempotent_witness :
    (insert_papers_to_db
        (insert_papers_to_db []
          [⟨"T".toList, "L".toList, "A".toList, "a b".toList, none⟩])
        [⟨"T".toList, "L".toList, "A".toList, "a b".toList, none⟩]
      = insert_papers_to_db []
          [⟨"T".toList, "L".toList, "A".toList, "a b".toList, none⟩]) ∧
    ((insert_papers_to_db []
        [⟨"T".toList, "L".toList, "A".toList, "a b".toList, none⟩]).map
          rowKey).Nodup :=
  insert_papers_idempotent []
    [⟨"T".toList, "L".toList, "A".toList, "a b".toList, none⟩] (by simp)

/-! ### Embedding backfill (`src/scripts/generate_embeddings.py`:
`create_db_cursor`, `fetch_papers`, `update_papers`, `main`). -/

/-- A stored chunk row as selected by the backfill job, with its nullable
embedding column. -/
structure EmbRow where
  title : List Char
  link : List Char
  authors : List Char
  content : List Char
  chunk_num : Nat
  embedding : Option (List Int)
deriving DecidableEq

/-- The write-back key of `update_papers`: `(link, chunk_num)`. -/
def embKey (r : EmbRow) : List Char × Nat := (r.link, r.chunk_num)

/-- The cursor's result set created once by `create_db_cursor`:
`SELECT ... WHERE embedding IS NULL` — a snapshot of the rows whose
embedding is null. -/
def nullRows (db : List EmbRow) : List EmbRow :=
  db.filter fun r => r.embedding.isNone

/-- The effect of `update_papers` on one stored row `t`: the SQL
`UPDATE ... FROM (VALUES ...) AS v WHERE t.link = v.link AND
t.chunk_num = v.chunk_num` sets the embedding of every row matching some
`(embedding, link, chunk_num)` tuple of the batch, the tuples being the
papers zipped positionally with their vectors. -/
def updateRow (batch : List EmbRow) (vecs : List (List Int))
    (t : EmbRow) : EmbRow :=
  match (batch.zip vecs).find? (fun bv => embKey bv.1 = embKey t) with
  | some bv => { t with embedding := some bv.2 }
  | none => t

/-- `update_papers`: apply the batched `UPDATE` to the whole store. -/
def update_papers (db : List EmbRow) (batch : List EmbRow)
    (vecs : List (List Int)) : List EmbRow :=
  db.map (updateRow batch vecs)

set_option linter.unusedVariables false in
/-- The `while True` loop of `main` with `CHUNKSIZE = 500`: fetch the
next 500 rows of the cursor snapshot (`fetch_papers`), stop when the
fetch is empty, otherwise embed the batch (`create_embeddings`,
abstracted as `embedFn`), write the vectors back and continue.  Returns
the final store state together with the list of fetched batches. -/
def backfillLoop (embedFn : List EmbRow → List (List Int)) :
    List EmbRow → List EmbRow → List EmbRow × List (List EmbRow)
  | pending, db =>
    if hpending : pending = [] then (db, [])
    else
      ((backfillLoop embedFn (pending.drop 500)
          (update_papers db (pending.take 500) (embedFn (pending.take 500)))).1,
        pending.take 500 ::
          (backfillLoop embedFn (pending.drop 500)
            (update_papers db (pending.take 500)
              (embedFn (pending.take 500)))).2)
termination_by pending _ => pending.length
decreasing_by
  all_goals
    rw [List.length_drop]
    have := List.length_pos.mpr hpending
    omega

/-- The whole backfill job: the cursor snapshot is the null-embedding
rows of the store at startup. -/
def run_backfill (embedFn : List EmbRow → List (List Int))
    (db : List EmbRow) : List EmbRow × List (List EmbRow) :=
  backfillLoop embedFn (nullRows db) db

theorem updateRow_null_mono (batch : List EmbRow) (vecs : List (List Int))
    (t : EmbRow) (h : (updateRow batch vecs t).embedding.isNone = true) :
    t.embedding.isNone = true := by
  rw [updateRow] at h
  cases hfind : (batch.zip vecs).find? (fun bv => embKey bv.1 = embKey t) with
  | some bv => rw [hfind] at h; simp at h
  | none => rw [hfind] at h; exact h

theorem updateRow_flips {batch : List EmbRow} {vecs : List (List Int)}
    {r : EmbRow} (hr : ∃ y, (r, y) ∈ batch.zip vecs) :
    (updateRow batch vecs r).embedding.isNone = false := by
  obtain ⟨y, hy⟩ := hr
  rw [updateRow]
  cases hfind : (batch.zip vecs).find? (fun bv => embKey bv.1 = embKey r) with
  | some bv => simp
  | none =>
      have := List.find?_eq_none.mp hfind (r, y) hy
      simp at this

theorem updateRow_skips {batch : List EmbRow} {vecs : List (List Int)}
    {r : EmbRow} (h : ∀ q ∈ batch, embKey q ≠ embKey r) :
    updateRow batch vecs r = r := by
  rw [updateRow]
  cases hfind : (batch.zip vecs).find? (fun bv => embKey bv.1 = embKey r) with
  | some bv =>
      have hp := List.find?_some hfind
      have hmem := List.mem_of_find?_eq_some hfind
      have h1 : bv.1 ∈ batch := (List.of_mem_zip hmem).1
      exact absurd (of_decide_eq_true hp) (h bv.1 h1)
  | none => rfl

theorem exists_zip_pair {b : List α} {v : List β}
    (hlen : v.length = b.length) {x : α} (hx : x ∈ b) :
    ∃ y, (x, y) ∈ b.zip v := by
  induction b generalizing v with
  | nil => simp at hx
  | cons q t ih =>
      cases v with
      | nil => simp at hlen
      | cons y u =>
          rcases List.mem_cons.mp hx with h | h
          · exact ⟨y, by rw [h, List.zip_cons_cons]; simp⟩
          · obtain ⟨y2, hy2⟩ := ih (by simpa using hlen) h
            exact ⟨y2, by rw [List.zip_cons_cons]; simp [hy2]⟩

theorem length_filter_map_le (f : α → α) (p : α → Bool)
    (h : ∀ x, p (f x) = true → p x = true) (l : List α) :
    ((l.map f).filter p).length ≤ (l.filter p).length := by
  induction l with
  | nil => simp
  | cons a t ih =>
      rw [List.map_cons, List.filter_cons, List.filter_cons]
      cases hfa : p (f a) with
      | true =>
          rw [h a hfa]
          simpa using ih
      | false =>
          cases hpa : p a with
          | true =>
              simp only [Bool.false_eq_true, if_false, if_true,
                List.length_cons]
              exact Nat.le_succ_of_le ih
          | false =>
              simp only [Bool.false_eq_true, if_false]
              exact ih

theorem length_filter_map_lt (f : α → α) (p : α → Bool)
    (h : ∀ x, p (f x) = true → p x = true) {l : List α} {x : α}
    (hx : x ∈ l) (hpx : p x = true) (hfx : p (f x) = false) :
    ((l.map f).filter p).length < (l.filter p).length := by
  induction l with
  | nil => simp at hx
  | cons a t ih =>
      rw [List.map_cons, List.filter_cons, List.filter_cons]
      rcases List.mem_cons.mp hx with heq | hmem
      · subst heq
        rw [hfx, hpx]
        simp only [Bool.false_eq_true, if_false, if_true, List.length_cons]
        exact Nat.lt_succ_of_le (length_filter_map_le f p h t)
      · cases hfa : p (f a) with
        | true =>
            rw [h a hfa]
            simp only [if_true, List.length_cons]
            exact Nat.succ_lt_succ (ih hmem)
        | false =>
            cases hpa : p a with
            | true =>
                simp only [Bool.false_eq_true, if_false, if_true,
                  List.length_cons]
                exact Nat.lt_succ_of_le (Nat.le_of_lt (ih hmem))
            | false =>
                simp only [Bool.false_eq_true, if_false]
                exact ih hmem

/-- One successfully processed nonempty batch strictly reduces the count
of null-embedding rows. -/
theorem update_papers_strict (dbc batch : List EmbRow)
    (vecs : List (List Int)) (hne : batch ≠ [])
    (hmem : ∀ r ∈ batch, r ∈ dbc ∧ r.embedding = none)
    (hlen : vecs.length = batch.length) :
    (nullRows (update_papers dbc batch vecs)).length
      < (nullRows dbc).length := by
  cases batch with
  | nil => exact absurd rfl hne
  | cons r t =>
      obtain ⟨hrdb, hrnull⟩ := hmem r (by simp)
      refine length_filter_map_lt _ _
        (fun x hx => updateRow_null_mono _ _ x hx) hrdb ?_ ?_
      · rw [hrnull]; rfl
      · exact updateRow_flips (exists_zip_pair hlen (by simp))

theorem backfillLoop_batches (embedFn : List EmbRow → List (List Int)) :
    ∀ n (pending db : List EmbRow), pending.length ≤ n →
      (backfillLoop embedFn pending db).2 = chunkList 500 pending := by
  intro n
  induction n with
  | zero =>
      intro pending db hn
      have hp : pending = [] := List.length_eq_zero.mp (Nat.le_zero.mp hn)
      subst hp
      rw [backfillLoop]
      simp [chunkList]
  | succ n ih =>
      intro pending db hn
      rw [backfillLoop]
      by_cases hp : pending = []
      · subst hp
        simp [chunkList]
      · rw [dif_neg hp]
        cases pending with
        | nil => exact absurd rfl hp
        | cons x xs =>
            rw [chunkList]
            have h1 : (x :: xs).take 500 = x :: xs.take 499 := rfl
            have h2 : (x :: xs).drop 500 = xs.drop 499 := rfl
            rw [h1, h2] at *
            have hlen2 : (xs.drop 499).length ≤ n := by
              rw [List.length_drop]
              simp only [List.length_cons] at hn
              omega
            rw [ih (xs.drop 499) _ hlen2]

theorem backfillLoop_complete (embedFn : List EmbRow → List (List Int))
    (hlen : ∀ b, (embedFn b).length = b.length) :
    ∀ n (pending db : List EmbRow), pending.length ≤ n →
      (pending.map embKey).Nodup →
      (∀ r ∈ pending, r ∈ db) →
      (∀ t ∈ db, t.embedding.isNone = true → t ∈ pending) →
      nullRows (backfillLoop embedFn pending db).1 = [] := by
  intro n
  induction n with
  | zero =>
      intro pending db hn _ _ hdb
      have hp : pending = [] := List.length_eq_zero.mp (Nat.le_zero.mp hn)
      subst hp
      rw [backfillLoop]
      simp only [dif_pos rfl]
      rw [nullRows, List.filter_eq_nil_iff]
      intro t ht
      intro hnull
      simpa using hdb t ht hnull
  | succ n ih =>
      intro pending db hn hnodup hsub hdb
      rw [backfillLoop]
      by_cases hp : pending = []
      · subst hp
        simp only [dif_pos rfl]
        rw [nullRows, List.filter_eq_nil_iff]
        intro t ht hnull
        simpa using hdb t ht hnull
      · rw [dif_neg hp]
        have hsplit := List.take_append_drop 500 pending
        have hdisj : ∀ q ∈ pending.take 500, ∀ r ∈ pending.drop 500,
            embKey q ≠ embKey r := by
          intro q hq r hr heq
          have hmap : (pending.map embKey)
              = (pending.take 500).map embKey
                ++ (pending.drop 500).map embKey := by
            rw [← List.map_append, hsplit]
          rw [hmap] at hnodup
          have hd := (List.nodup_append.mp hnodup).2.2
          exact hd (List.mem_map_of_mem embKey hq)
            (heq ▸ List.mem_map_of_mem embKey hr)
        refine ih (pending.drop 500)
          (update_papers db (pending.take 500) (embedFn (pending.take 500)))
          ?_ ?_ ?_ ?_
        · rw [List.length_drop]
          have := List.length_pos.mpr hp
          omega
        · exact List.Nodup.sublist
            (List.Sublist.map embKey (List.drop_sublist 500 pending)) hnodup
        · intro r hr
          have hrdb : r ∈ db := hsub r (by
            rw [← hsplit]
            exact List.mem_append.mpr (Or.inr hr))
          have hskip : updateRow (pending.take 500)
              (embedFn (pending.take 500)) r = r :=
            updateRow_skips fun q hq => hdisj q hq r hr
          rw [update_papers, ← hskip]
          exact List.mem_map_of_mem _ hrdb
        · intro t ht hnull
          rw [update_papers] at ht
          obtain ⟨t0, ht0, hft0⟩ := List.mem_map.mp ht
          have ht0null : t0.embedding.isNone = true :=
            updateRow_null_mono _ _ t0 (hft0 ▸ hnull)
          have ht0pending : t0 ∈ pending := hdb t0 ht0 ht0null
          have ht0drop : t0 ∈ pending.drop 500 := by
            rcases List.mem_append.mp (hsplit ▸ ht0pending) with h | h
            · exfalso
              have := updateRow_flips
                (exists_zip_pair (hlen (pending.take 500)) h)
              rw [← hft0, this] at hnull
              exact Bool.noConfusion hnull
            · exact h
          have hskip : updateRow (pending.take 500)
              (embedFn (pending.take 500)) t0 = t0 :=
            updateRow_skips fun q hq => hdisj q hq t0 ht0drop
          rw [← hft0, hskip]
          exact ht0drop

/-- C8: the backfill loop fetches the null-embedding snapshot in batches
of 500, so it runs exactly `ceil(backlog / 500)` processing iterations
and terminates; the fetched batches partition the snapshot, every row
ever selected has a null embedding (no already-embedded row is selected);
assuming the provider returns one vector per input and the store's
`(link, chunk_num)` keys are unique, the final store has no
null-embedding row left, and each successfully processed nonempty batch
strictly reduces the count of null-embedding rows. -/
theorem backfill_loop_spec (embedFn : List EmbRow → List (List Int))
    (db : List EmbRow)
    (hlen : ∀ b, (embedFn b).length = b.length)
    (hkeys : (db.map embKey).Nodup) :
    ((run_backfill embedFn db).2).flatten = nullRows db ∧
    ((run_backfill embedFn db).2).length = ((nullRows db).length + 499) / 500 ∧
    (∀ b ∈ (run_backfill embedFn db).2, ∀ r ∈ b, r.embedding = none) ∧
    nullRows (run_backfill embedFn db).1 = [] ∧
    (∀ (dbc batch : List EmbRow) (vecs : List (List Int)), batch ≠ [] →
      (∀ r ∈ batch, r ∈ dbc ∧ r.embedding = none) →
      vecs.length = batch.length →
      (nullRows (update_papers dbc batch vecs)).length
        < (nullRows dbc).length) := by
  have hbatches : (run_backfill embedFn db).2 = chunkList 500 (nullRows db) :=
    backfillLoop_batches embedFn (nullRows db).length (nullRows db) db
      (Nat.le_refl _)
  refine ⟨?_, ?_, ?_, ?_, ?_⟩
  · rw [hbatches, chunkList_flatten]
  · rw [hbatches, chunkList_length 500 (by norm_num)]
    omega
  · intro b hb r hr
    rw [hbatches] at hb
    have hmem := chunkList_mem_subset 500 (nullRows db) b hb r hr
    rw [nullRows] at hmem
    have := List.of_mem_filter hmem
    exact Option.isNone_iff_eq_none.mp this
  · refine backfillLoop_complete embedFn hlen (nullRows db).length
      (nullRows db) db (Nat.le_refl _) ?_ ?_ ?_
    · exact List.Nodup.sublist
        (List.Sublist.map embKey (List.filter_sublist db)) hkeys
    · intro r hr
      exact List.mem_of_mem_filter hr
    · intro t ht hnull
      exact List.mem_filter.mpr ⟨ht, hnull⟩
  · exact update_papers_strict

/-- Witness for `backfill_loop_spec`: a one-row store whose single row
lacks an embedding, with a provider returning a zero vector per input. -/
theorem backfill_loop_spec_witness :
    ((run_backfill (fun b => b.map (fun _ => ([] : List Int)))
        [⟨"T".toList, "L".toList, "A".toList, "c".toList, 0, none⟩]).2).flatten
      = nullRows [⟨"T".toList, "L".toList, "A".toList, "c".toList, 0, none⟩] ∧
    ((run_backfill (fun b => b.map (fun _ => ([] : List Int)))
        [⟨"T".toList, "L".toList, "A".toList, "c".toList, 0, none⟩]).2).length
      = ((nullRows [⟨"T".toList, "L".toList, "A".toList, "c".toList, 0,
          none⟩]).length + 499) / 500 ∧
    (∀ b ∈ (run_backfill (fun b => b.map (fun _ => ([] : List Int)))
        [⟨"T".toList, "L".toList, "A".toList, "c".toList, 0, none⟩]).2,
      ∀ r ∈ b, r.embedding = none) ∧
    nullRows (run_backfill (fun b => b.map (fun _ => ([] : List Int)))
        [⟨"T".toList, "L".toList, "A".toList, "c".toList, 0, none⟩]).1 = [] ∧
    (∀ (dbc batch : List EmbRow) (vecs : List (List Int)), batch ≠ [] →
      (∀ r ∈ batch, r ∈ dbc ∧ r.embedding = none) →
      vecs.length = batch.length →
      (nullRows (update_papers dbc batch vecs)).length
        < (nullRows dbc).length) :=
  backfill_loop_spec (fun b => b.map (fun _ => ([] : List Int)))
    [⟨"T".toList, "L".toList, "A".toList, "c".toList, 0, none⟩]
    (fun b => by rw [List.length_map]) (by simp)

/-! ### Startup configuration failure (`main` of
`src/scripts/gscholar_scraper.py` / `src/scripts/arxiv_scraper.py` with
the table check inside `helper.insert_papers_to_db`, and `main` of
`src/scripts/generate_embeddings.py` with the check inside
`create_db_cursor`). -/

/-- Observable steps of the batch jobs. -/
inductive JobEvent where
  | listingFetch : JobEvent
  | contentFetch : JobEvent
  | insertCommit : JobEvent
  | rowFetch : JobEvent
  | embedCall : JobEvent
  | configError : JobEvent
deriving DecidableEq

/-- The per-batch body of the scraper `main` loop: scrape the batch's
paper contents, then call `insert_papers_to_db`, which reads the table
name from the environment and raises `ValueError` when it is unset —
after the batch's scraping but before any insert.  The `Bool` records
whether the uncaught `ValueError` aborted the job. -/
def scrapeBatches (tbl : Option (List Char)) :
    List (List ResearchPaper) → List JobEvent × Bool
  | [] => ([], false)
  | batch :: rest =>
    match tbl with
    | none =>
        (List.replicate batch.length JobEvent.contentFetch
          ++ [JobEvent.configError], true)
    | some t =>
        (List.replicate batch.length JobEvent.contentFetch
            ++ JobEvent.insertCommit :: (scrapeBatches (some t) rest).1,
          (scrapeBatches (some t) rest).2)

/-- The scraper job's `main`: gate on `RUN_SCRAPER`, scrape the listing
pages, then process the discovered papers in batches of
`DB_INSERT_CHUNK = 100`.  `papers` abstracts the listing scrape's
result. -/
def scraperMain (run : Option (List Char)) (tbl : Option (List Char))
    (pages : Nat) (papers : List ResearchPaper) : List JobEvent × Bool :=
  match run with
  | none => ([], false)
  | some s =>
    if s.map Char.toLower ≠ "true".toList then ([], false)
    else
      (List.replicate pages JobEvent.listingFetch
          ++ (scrapeBatches tbl (chunkList 100 papers)).1,
        (scrapeBatches tbl (chunkList 100 papers)).2)

/-- The embedding job's `main`: gate on `RUN_EMBED_GEN`, then
`create_db_cursor`, which checks the table name and raises before
executing the `SELECT`; afterwards the loop makes one provider call per
batch of 500 snapshot rows. -/
def embedMain (run : Option (List Char)) (tbl : Option (List Char))
    (db : List EmbRow) : List JobEvent × Bool :=
  match run with
  | none => ([], false)
  | some s =>
    if s.map Char.toLower ≠ "true".toList then ([], false)
    else match tbl with
      | none => ([JobEvent.configError], true)
      | some _ =>
          (JobEvent.rowFetch
              :: List.replicate (((nullRows db).length + 499) / 500)
                JobEvent.embedCall,
            false)

/-- C9 fails on the code for the scraper jobs: with `RUN_SCRAPER=true`,
the table variable unset, one listing page and one discovered paper, the
job performs the listing fetch and the paper's content fetch before the
missing-table `ValueError` is raised inside `insert_papers_to_db` — the
failure is not at startup and scraping work precedes it. -/
theorem scraper_missing_table_not_at_startup :
    scraperMain (some "true".toList) none 1
        [⟨"T".toList, "L".toList, "A".toList, [], none⟩]
      = ([JobEvent.listingFetch, JobEvent.contentFetch,
          JobEvent.configError], true) ∧
    (scraperMain (some "true".toList) none 1
        [⟨"T".toList, "L".toList, "A".toList, [], none⟩]).1.head?
      ≠ some JobEvent.configError := by
  have hchunk : chunkList 100
      [(⟨"T".toList, "L".toList, "A".toList, [], none⟩ : ResearchPaper)]
      = [[⟨"T".toList, "L".toList, "A".toList, [], none⟩]] := by
    rw [chunkList]
    simp [chunkList]
  have h : scraperMain (some "true".toList) none 1
      [⟨"T".toList, "L".toList, "A".toList, [], none⟩]
      = ([JobEvent.listingFetch, JobEvent.contentFetch,
          JobEvent.configError], true) := by
    rw [scraperMain, hchunk]
    simp [scrapeBatches, List.replicate]
  exact ⟨h, by rw [h]; decide⟩

/-- C9 amended: the affected jobs fail on a missing table name, but at
different points.  The embedding job raises inside `create_db_cursor`,
before any row fetch or provider call.  A scraper job raises only when
the first batch reaches `insert_papers_to_db`: all listing fetches and
the first batch's content fetches (100 papers, or fewer in a short last
batch) have already run, though nothing is ever committed; and when the
listing scrape found no papers at all, the job finishes cleanly without
ever noticing the missing variable. -/
theorem missing_table_failure_points (papers : List ResearchPaper)
    (pages : Nat) (db : List EmbRow) :
    (papers ≠ [] →
      (scraperMain (some "true".toList) none pages papers).1
        = List.replicate pages JobEvent.listingFetch
          ++ List.replicate (min 100 papers.length) JobEvent.contentFetch
          ++ [JobEvent.configError] ∧
      (scraperMain (some "true".toList) none pages papers).2 = true ∧
      JobEvent.insertCommit
        ∉ (scraperMain (some "true".toList) none pages papers).1) ∧
    (papers = [] →
      scraperMain (some "true".toList) none pages papers
        = (List.replicate pages JobEvent.listingFetch, false)) ∧
    embedMain (some "true".toList) none db
      = ([JobEvent.configError], true) := by
  have hgate : ¬ ("true".toList.map Char.toLower ≠ "true".toList) := by decide
  refine ⟨?_, ?_, ?_⟩
  · intro hne
    cases papers with
    | nil => exact absurd rfl hne
    | cons p ps =>
        rw [scraperMain, if_neg hgate, chunkList]
        rw [scrapeBatches]
        have hlen : ((p :: ps.take (100 - 1)).length)
            = min 100 (p :: ps).length := by
          simp only [List.length_cons, List.length_take]
          omega
        refine ⟨?_, rfl, ?_⟩
        · simp only [hlen, List.append_assoc]
        · intro hmem
          rcases List.mem_append.mp hmem with h | h
          · exact JobEvent.noConfusion (List.eq_of_mem_replicate h)
          · rcases List.mem_append.mp h with h2 | h2
            · exact JobEvent.noConfusion (List.eq_of_mem_replicate h2)
            · simp only [List.mem_singleton] at h2
              exact JobEvent.noConfusion h2
  · intro hnil
    subst hnil
    rw [scraperMain, if_neg hgate, chunkList]
    rw [scrapeBatches]
    simp
  · rw [embedMain, if_neg hgate]

/-- Witness for `missing_table_failure_points` at one paper, one listing
page and an empty store. -/
theorem missing_table_failure_points_witness :
    ((scraperMain (some "true".toList) none 1
        [⟨"T".toList, "L".toList, "A".toList, [], none⟩]).1
      = List.replicate 1 JobEvent.listingFetch
        ++ List.replicate (min 100
            [(⟨"T".toList, "L".toList, "A".toList, [],
              none⟩ : ResearchPaper)].length) JobEvent.contentFetch
        ++ [JobEvent.configError] ∧
    (scraperMain (some "true".toList) none 1
        [⟨"T".toList, "L".toList, "A".toList, [], none⟩]).2 = true ∧
    JobEvent.insertCommit
      ∉ (scraperMain (some "true".toList) none 1
          [⟨"T".toList, "L".toList, "A".toList, [], none⟩]).1) ∧
    JobEvent.rowFetch ∉ (embedMain (some "true".toList) none
        ([] : List EmbRow)).1 :=
  ⟨(missing_table_failure_points
      [⟨"T".toList, "L".toList, "A".toList, [], none⟩] 1 []).1
      (by intro h; exact List.noConfusion h),
    by
      rw [(missing_table_failure_points
        [⟨"T".toList, "L".toList, "A".toList, [], none⟩] 1 []).2.2]
      decide⟩
